import Mathlib

/-!
# Verification of the percent-script notebook converter

Shallow embedding of `helpers/converter.py`: the encoder
`ipynb_to_percent_script` (Document → marked text) and the decoder
`percent_script_to_ipynb` (marked text → Document), together with proofs
of the specification's claims about them.

Python strings are modelled as `List Char` (`Str`); text contains `'\n'`
as its only line terminator, and Python's whitespace predicate is
modelled by `Char.isWhitespace`.  File I/O and the notebook container
(nbformat) are outside the modelled core: the encoder maps a list of
cells to the script text, and the decoder maps script text back to the
list of cells.
-/

abbrev Str := List Char

/-- Python `s.rstrip()`: remove trailing whitespace characters. -/
def pyRstrip (s : Str) : Str :=
  List.rdropWhile Char.isWhitespace s

/-- Python `s.lstrip()`: remove leading whitespace characters. -/
def pyLstrip (s : Str) : Str :=
  s.dropWhile Char.isWhitespace

/-- Python `s.strip()`: remove whitespace on both ends. -/
def pyStrip (s : Str) : Str :=
  pyLstrip (pyRstrip s)

/-- A line is blank when it consists of whitespace only (`line.strip() == ""`). -/
def isBlankStr (s : Str) : Bool :=
  s.all Char.isWhitespace

/-- Split a character list at every occurrence of `c` (Python `s.split(c)`). -/
def splitOnChar (c : Char) : Str → List Str
  | [] => [[]]
  | a :: rest =>
    match splitOnChar c rest with
    | [] => [[]]
    | h :: t => if a = c then [] :: h :: t else (a :: h) :: t

/-- Join lines with `'\n'` (Python `"\n".join(lines)`). -/
def joinLines : List Str → Str
  | [] => []
  | [l] => l
  | l :: ls => l ++ '\n' :: joinLines ls

/-- Python `text.splitlines()` for `'\n'`-terminated text: split on `'\n'`,
with no empty trailing entry when the text ends in a newline. -/
def pySplitlines (s : Str) : List Str :=
  if s = [] then []
  else if s.getLast? = some '\n' then splitOnChar '\n' s.dropLast
  else splitOnChar '\n' s

/-- Cell kind discriminator of the decoder's scan state. -/
inductive Kind where
  | code
  | markdown
deriving DecidableEq, Repr

/-- A notebook cell: `code`/`markdown` carry their source text; any other
`cell_type` is represented by `other` with its type name and source. -/
inductive Cell where
  | code (source : Str)
  | markdown (source : Str)
  | other (cellType : Str) (source : Str)
deriving DecidableEq, Repr

/-- The literal code-cell marker token `"# %%"`. -/
def codeMarkerS : Str := "# %%".data

/-- The markdown marker line `"# %% [markdown]"`. -/
def markdownMarkerS : Str := "# %% [markdown]".data

/-- The markdown qualifier substring `"[markdown]"`. -/
def markdownTagS : Str := "[markdown]".data

/-- The markdown comment prefix with a space, `"# "`. -/
def hashSpaceS : Str := "# ".data

/-- The bare markdown comment prefix `"#"`. -/
def hashS : Str := "#".data

/-- Substring occurrence check (Python `pat in s`). -/
def containsSeq (pat : Str) : Str → Bool
  | [] => pat.isPrefixOf []
  | a :: rest => pat.isPrefixOf (a :: rest) || containsSeq pat rest

/-- Encoder treatment of one markdown source line: a blank line becomes the
bare `"#"`, any other line gets `"# "` prepended. -/
def mdEncodeLine (line : Str) : Str :=
  if pyStrip line = [] then hashS else hashSpaceS ++ line

/-- Lines the encoder emits for one cell (the loop body of
`ipynb_to_percent_script`): marker line, encoded content, one blank
separator; unsupported kinds emit nothing. -/
def cellLines : Cell → List Str
  | Cell.markdown src =>
    markdownMarkerS :: ((pySplitlines src).map mdEncodeLine ++ [[]])
  | Cell.code src =>
    codeMarkerS :: ((if src ≠ [] then pySplitlines src else []) ++ [[]])
  | Cell.other _ _ => []

/-- Diagnostics the encoder prints for one cell: unsupported kinds produce
one "Skipping unsupported cell type" message naming the kind. -/
def cellDiag : Cell → List Str
  | Cell.other t _ => [("Skipping unsupported cell type: ".data) ++ t]
  | _ => []

/-- All diagnostics printed by `ipynb_to_percent_script` over a document. -/
def encodeDiags (cells : List Cell) : List Str :=
  (cells.map cellDiag).flatten

/-- The encoder `ipynb_to_percent_script` (pure core): emit the lines of each
cell in order, join with newlines, strip trailing whitespace and append
exactly one final newline. -/
def ipynb_to_percent_script (cells : List Cell) : Str :=
  pyRstrip (joinLines ((cells.map cellLines).flatten)) ++ ['\n']

/-- Decoder treatment of one buffered markdown line: drop `"# "`, else drop
`"#"` plus following whitespace, else keep the line unchanged. -/
def mdDecodeLine (l : Str) : Str :=
  if hashSpaceS.isPrefixOf l then l.drop 2
  else if hashS.isPrefixOf l then pyLstrip (l.drop 1)
  else l

/-- Materialise a cell of the given kind from the buffered lines (the body of
`flush_cell` after the `None` guard). -/
def mkCell (k : Kind) (buf : List Str) : Cell :=
  match k with
  | Kind.markdown => Cell.markdown (pyRstrip (joinLines (buf.map mdDecodeLine)))
  | Kind.code => Cell.code (pyRstrip (joinLines buf))

/-- The decoder's `flush_cell`: no cell when no kind is open, otherwise
materialise the buffered lines as a cell of the open kind. -/
def flush_cell (k : Option Kind) (buf : List Str) : Option Cell :=
  match k with
  | none => none
  | some Kind.markdown =>
    some (Cell.markdown (pyRstrip (joinLines (buf.map mdDecodeLine))))
  | some Kind.code =>
    some (Cell.code (pyRstrip (joinLines buf)))

/-- Scan state of `percent_script_to_ipynb`: accumulated cells, the kind of
the currently open cell, and its buffered content lines. -/
structure ScanState where
  cells : List Cell
  currentKind : Option Kind
  currentLines : List Str
deriving DecidableEq, Repr

/-- A line opens a new cell when it starts with the marker token `"# %%"`. -/
def isMarkerLine (l : Str) : Bool :=
  codeMarkerS.isPrefixOf l

/-- Kind opened by a marker line: markdown when `"[markdown]"` occurs
anywhere in the line, code otherwise. -/
def kindOfMarker (l : Str) : Kind :=
  if containsSeq markdownTagS l then Kind.markdown else Kind.code

/-- One step of the decoder's line loop: a marker line flushes the open cell
and opens a new one of the marker's kind; any other line is buffered. -/
def stepLine (st : ScanState) (l : Str) : ScanState :=
  if isMarkerLine l then
    { cells := st.cells ++ (flush_cell st.currentKind st.currentLines).toList
      currentKind := some (kindOfMarker l)
      currentLines := [] }
  else
    { st with currentLines := st.currentLines ++ [l] }

/-- Final flush at end of input: the accumulated cells plus the still-open cell. -/
def finishScan (st : ScanState) : List Cell :=
  st.cells ++ (flush_cell st.currentKind st.currentLines).toList

/-- Run the decoder's line loop from a given state and flush the final cell. -/
def decodeFrom (st : ScanState) (lines : List Str) : List Cell :=
  finishScan (lines.foldl stepLine st)

/-- Decode a list of physical lines into cells. -/
def decodeLines (lines : List Str) : List Cell :=
  decodeFrom ⟨[], none, []⟩ lines

/-- The decoder `percent_script_to_ipynb` (pure core): split the text into
lines and run the scan. -/
def percent_script_to_ipynb (text : Str) : List Cell :=
  decodeLines (pySplitlines text)

/-- Source text of a cell. -/
def cellSource : Cell → Str
  | Cell.code s => s
  | Cell.markdown s => s
  | Cell.other _ s => s

/-- Marker line emitted for a cell kind. -/
def markerOf : Kind → Str
  | Kind.code => codeMarkerS
  | Kind.markdown => markdownMarkerS

/-- Rendered lines of one block: its marker line followed by its content lines. -/
def renderCore (b : Kind × List Str) : List Str :=
  markerOf b.1 :: b.2

/-- Rendered lines of a nonempty sequence of blocks: blocks separated by one
blank line, no blank after the last. -/
def renderBlocks : List (Kind × List Str) → List Str
  | [] => []
  | [b] => renderCore b
  | b :: rest => renderCore b ++ [[]] ++ renderBlocks rest

/-- A line with no newline character inside. -/
def noNewline (l : Str) : Bool :=
  l.all (fun c => !(c == '\n'))

/-- A properly prefixed markdown content line: the bare hash, or the hash
prefix with a space followed by non-blank content. -/
def mdLineOK (l : Str) : Bool :=
  l == hashS || (hashSpaceS.isPrefixOf l && !(isBlankStr (l.drop 2)))

/-- The last content line of a nonempty core: no trailing whitespace, and it
decodes to a non-blank line for its kind. -/
def lastLineOK (k : Kind) (core : List Str) : Bool :=
  match core.getLast? with
  | none => true
  | some z =>
    (pyRstrip z == z) &&
      (match k with
       | Kind.code => !z.isEmpty
       | Kind.markdown => hashSpaceS.isPrefixOf z)

/-- Wellformedness of one block of marked text. -/
def blockOK (b : Kind × List Str) : Bool :=
  b.2.all (fun l => !(isMarkerLine l) && noNewline l) &&
    (match b.1 with
     | Kind.markdown => b.2.all mdLineOK
     | Kind.code => true) &&
    lastLineOK b.1 b.2

/-- Kind discriminator of a cell (`none` for unsupported kinds). -/
def cellKind : Cell → Option Kind
  | Cell.code _ => some Kind.code
  | Cell.markdown _ => some Kind.markdown
  | Cell.other _ _ => none

/-- The observation compared across the document round trip: the cell's kind
together with its source with trailing whitespace stripped. -/
def cellKS (c : Cell) : Option Kind × Str :=
  (cellKind c, pyRstrip (cellSource c))

/-- Amended per-cell hypotheses of the document round trip: the cell is Code
or Markdown with non-blank source; no code source line starts with the
marker token; no markdown source line starts with a percent pair, and every
whitespace-only markdown source line is empty. -/
def cellOK : Cell → Bool
  | Cell.code src =>
      !(isBlankStr src) && (pySplitlines src).all (fun l => !(isMarkerLine l))
  | Cell.markdown src =>
      !(isBlankStr src) &&
        (pySplitlines src).all (fun l =>
          !(("%%".data).isPrefixOf l) && (l.isEmpty || !(isBlankStr l)))
  | Cell.other _ _ => false

/-- Block of marked-text lines emitted for a simple cell. -/
def blockOfCell : Cell → Kind × List Str
  | Cell.code src => (Kind.code, if src ≠ [] then pySplitlines src else [])
  | Cell.markdown src => (Kind.markdown, (pySplitlines src).map mdEncodeLine)
  | Cell.other _ _ => (Kind.code, [])

/-- The markdown qualifier appearing immediately after the marker token
(allowing intervening spaces), which is how the original claim reads the
grammar. -/
def qualifierImmediately (l : Str) : Bool :=
  markdownTagS.isPrefixOf (pyLstrip (l.drop 4))

/-! ## Basic list toolkit -/

theorem isPrefixOf_exists {u v : Str} :
    u.isPrefixOf v = true ↔ ∃ t, v = u ++ t := by
  induction u generalizing v with
  | nil => simp [List.isPrefixOf]
  | cons a u ih =>
    cases v with
    | nil => simp [List.isPrefixOf]
    | cons b v =>
      simp only [List.isPrefixOf, Bool.and_eq_true, beq_iff_eq, ih, List.cons_append,
        List.cons.injEq]
      constructor
      · rintro ⟨rfl, t, rfl⟩
        exact ⟨t, rfl, rfl⟩
      · rintro ⟨t, rfl, rfl⟩
        exact ⟨rfl, t, rfl⟩

theorem isPrefixOf_append_self (u t : Str) : u.isPrefixOf (u ++ t) = true :=
  isPrefixOf_exists.mpr ⟨t, rfl⟩

theorem isPrefixOf_trans {u v w : Str} (h₁ : u.isPrefixOf v = true)
    (h₂ : v.isPrefixOf w = true) : u.isPrefixOf w = true := by
  obtain ⟨t₁, rfl⟩ := isPrefixOf_exists.mp h₁
  obtain ⟨t₂, rfl⟩ := isPrefixOf_exists.mp h₂
  exact isPrefixOf_exists.mpr ⟨t₁ ++ t₂, by simp⟩

theorem rdropWhile_append_all {p : α → Bool} {B : List α} (s : List α)
    (hB : ∀ b ∈ B, p b = true) :
    List.rdropWhile p (s ++ B) = List.rdropWhile p s := by
  induction B using List.reverseRecOn with
  | nil => simp
  | append_singleton B x ih =>
    rw [← List.append_assoc, List.rdropWhile_concat_pos _ _ x (hB x (by simp))]
    exact ih fun b hb => hB b (by simp [hb])

theorem rdropWhile_append_rtakeWhile (p : α → Bool) (l : List α) :
    List.rdropWhile p l ++ List.rtakeWhile p l = l := by
  rw [List.rdropWhile, List.rtakeWhile, ← List.reverse_append,
    List.takeWhile_append_dropWhile, List.reverse_reverse]

theorem rdropWhile_append_of_ne {p : α → Bool} {t : List α} (s : List α)
    (ht : List.rdropWhile p t ≠ []) :
    List.rdropWhile p (s ++ t) = s ++ List.rdropWhile p t := by
  conv_lhs => rw [← rdropWhile_append_rtakeWhile p t]
  rw [← List.append_assoc,
    rdropWhile_append_all (s ++ List.rdropWhile p t) fun b hb => List.mem_rtakeWhile_imp hb]
  have hfix : List.rdropWhile p (List.rdropWhile p t) = List.rdropWhile p t :=
    List.rdropWhile_idempotent p t
  rw [List.rdropWhile_eq_self_iff] at hfix ⊢
  intro hne
  rw [List.getLast_append_of_ne_nil ht]
  exact hfix ht

/-! ## pyRstrip lemmas -/

theorem pyRstrip_append_ws {B : Str} (s : Str) (hB : ∀ b ∈ B, b.isWhitespace = true) :
    pyRstrip (s ++ B) = pyRstrip s :=
  rdropWhile_append_all s hB

theorem pyRstrip_idem (s : Str) : pyRstrip (pyRstrip s) = pyRstrip s :=
  List.rdropWhile_idempotent _ s

theorem pyRstrip_eq_nil_iff {s : Str} :
    pyRstrip s = [] ↔ isBlankStr s = true := by
  rw [pyRstrip, List.rdropWhile_eq_nil_iff, isBlankStr, List.all_eq_true]

theorem pyRstrip_append_pyRstrip (s t : Str) :
    pyRstrip (s ++ t) = pyRstrip (s ++ pyRstrip t) := by
  by_cases h : pyRstrip t = []
  · rw [h, List.append_nil]
    have : ∀ b ∈ t, b.isWhitespace = true := by
      rw [← List.all_eq_true, ← isBlankStr, ← pyRstrip_eq_nil_iff]
      exact h
    exact pyRstrip_append_ws s this
  · conv_lhs => rw [← rdropWhile_append_rtakeWhile Char.isWhitespace t]
    rw [← List.append_assoc]
    exact pyRstrip_append_ws _ fun b hb => List.mem_rtakeWhile_imp hb

theorem pyRstrip_eq_self_of_getLast {s : Str}
    (h : ∀ c, s.getLast? = some c → c.isWhitespace = false) : pyRstrip s = s := by
  rw [pyRstrip, List.rdropWhile_eq_self_iff]
  intro hne
  have := h (s.getLast hne) (List.getLast?_eq_getLast s hne ▸ rfl)
  simp [this]

theorem getLast_not_ws_of_pyRstrip_fixed {s : Str} (hfix : pyRstrip s = s)
    {c : Char} (h : s.getLast? = some c) : c.isWhitespace = false := by
  have hne : s ≠ [] := by
    intro h0
    rw [h0] at h
    simp at h
  have hlast := List.rdropWhile_last_not Char.isWhitespace s (by rw [pyRstrip] at hfix; simp [hfix, hne])
  rw [pyRstrip] at hfix
  rw [List.getLast?_eq_getLast s hne] at h
  have : List.rdropWhile Char.isWhitespace s = s := hfix
  simp only [this] at hlast
  have hc : s.getLast hne = c := by
    injection h
  rw [← hc]
  simpa using hlast

/-! ## joinLines and splitOnChar lemmas -/

theorem joinLines_nil : joinLines [] = [] := rfl

theorem joinLines_single (l : Str) : joinLines [l] = l := rfl

theorem joinLines_cons₂ (l m : Str) (ls : List Str) :
    joinLines (l :: m :: ls) = l ++ '\n' :: joinLines (m :: ls) := rfl

theorem joinLines_concat {ls : List Str} (x : Str) (h : ls ≠ []) :
    joinLines (ls ++ [x]) = joinLines ls ++ '\n' :: x := by
  induction ls with
  | nil => cases h rfl
  | cons l ls ih =>
    cases ls with
    | nil => simp [joinLines_cons₂, joinLines_single, joinLines_nil]
    | cons m ls =>
      calc joinLines ((l :: m :: ls) ++ [x])
          = l ++ '\n' :: joinLines ((m :: ls) ++ [x]) := rfl
        _ = l ++ '\n' :: (joinLines (m :: ls) ++ '\n' :: x) := by rw [ih (by simp)]
        _ = joinLines (l :: m :: ls) ++ '\n' :: x := by rw [joinLines_cons₂]; simp

theorem joinLines_getLast? {M : List Str} {z : Str} (hz : z ≠ []) :
    (joinLines (M ++ [z])).getLast? = z.getLast? := by
  cases M with
  | nil => simp [joinLines_single]
  | cons m M =>
    rw [joinLines_concat _ (by simp)]
    rw [show ('\n' :: z) = ['\n'] ++ z from rfl, ← List.append_assoc]
    exact List.getLast?_append_of_ne_nil _ hz

theorem joinLines_blank {ls : List Str} (h : ∀ l ∈ ls, isBlankStr l = true) :
    isBlankStr (joinLines ls) = true := by
  induction ls with
  | nil => simp [joinLines_nil, isBlankStr]
  | cons l ls ih =>
    cases ls with
    | nil => exact h l (by simp)
    | cons m ms =>
      rw [joinLines_cons₂, isBlankStr, List.all_eq_true]
      intro c hc
      rcases List.mem_append.mp hc with hc | hc
      · exact List.all_eq_true.mp (h l (by simp)) c hc
      · rcases List.mem_cons.mp hc with rfl | hc
        · decide
        · exact List.all_eq_true.mp (ih fun x hx => h x (by simp [hx])) c hc

theorem splitOnChar_ne_nil (c : Char) (s : Str) : splitOnChar c s ≠ [] := by
  cases s with
  | nil => simp [splitOnChar]
  | cons a rest =>
    rw [splitOnChar]
    cases hsp : splitOnChar c rest with
    | nil => simp
    | cons h t =>
      dsimp only
      split <;> simp

theorem splitOnChar_of_not_mem {c : Char} {s : Str} (h : c ∉ s) :
    splitOnChar c s = [s] := by
  induction s with
  | nil => rfl
  | cons a rest ih =>
    rw [splitOnChar, ih (fun hmem => h (by simp [hmem]))]
    have hne : ¬a = c := fun hac => h (by simp [hac])
    simp [hne]

theorem splitOnChar_append_cons {c : Char} {l : Str} (s : Str) (h : c ∉ l) :
    splitOnChar c (l ++ c :: s) = l :: splitOnChar c s := by
  induction l with
  | nil =>
    rw [List.nil_append, splitOnChar]
    cases hsp : splitOnChar c s with
    | nil => exact absurd hsp (splitOnChar_ne_nil c s)
    | cons x t => simp
  | cons a l ih =>
    have hal : c ∉ l := fun hmem => h (by simp [hmem])
    rw [List.cons_append, splitOnChar, ih hal]
    have hne : ¬a = c := fun hac => h (by simp [hac])
    simp [hne]

theorem joinLines_splitOnChar (s : Str) : joinLines (splitOnChar '\n' s) = s := by
  induction s with
  | nil => rfl
  | cons a rest ih =>
    rw [splitOnChar]
    cases hsp : splitOnChar '\n' rest with
    | nil => exact absurd hsp (splitOnChar_ne_nil '\n' rest)
    | cons h t =>
      dsimp only
      rw [hsp] at ih
      by_cases hac : a = '\n'
      · subst hac
        rw [if_pos rfl]
        cases t with
        | nil =>
          rw [joinLines_single] at ih
          subst ih
          rfl
        | cons u us =>
          rw [joinLines_cons₂, ih]
          rfl
      · rw [if_neg hac]
        cases t with
        | nil =>
          rw [joinLines_single] at ih ⊢
          rw [ih]
        | cons u us =>
          rw [joinLines_cons₂] at ih ⊢
          rw [List.cons_append, ih]

theorem not_mem_of_mem_splitOnChar {c : Char} {s l : Str}
    (h : l ∈ splitOnChar c s) : c ∉ l := by
  induction s generalizing l with
  | nil =>
    simp [splitOnChar] at h
    simp [h]
  | cons a rest ih =>
    rw [splitOnChar] at h
    cases hsp : splitOnChar c rest with
    | nil => exact absurd hsp (splitOnChar_ne_nil c rest)
    | cons x t =>
      rw [hsp] at h
      dsimp only at h
      by_cases hac : a = c
      · rw [if_pos hac] at h
        rcases List.mem_cons.mp h with rfl | h
        · simp
        · exact ih (hsp ▸ h)
      · rw [if_neg hac] at h
        rcases List.mem_cons.mp h with rfl | h
        · intro hmem
          rcases List.mem_cons.mp hmem with rfl | hmem
          · exact hac rfl
          · exact ih (hsp ▸ List.mem_cons_self x t) hmem
        · exact ih (hsp ▸ List.mem_cons_of_mem x h)

theorem splitOnChar_joinLines {ls : List Str} (h : ls ≠ [])
    (hn : ∀ l ∈ ls, '\n' ∉ l) : splitOnChar '\n' (joinLines ls) = ls := by
  induction ls with
  | nil => cases h rfl
  | cons l ls ih =>
    cases ls with
    | nil =>
      rw [joinLines_single]
      exact splitOnChar_of_not_mem (hn l (by simp))
    | cons m ms =>
      rw [joinLines_cons₂, splitOnChar_append_cons _ (hn l (by simp))]
      rw [ih (by simp) fun x hx => hn x (by simp [hx])]

/-! ## pySplitlines lemmas -/

theorem pySplitlines_ne_nil {s : Str} (h : s ≠ []) : pySplitlines s ≠ [] := by
  rw [pySplitlines, if_neg h]
  by_cases hl : s.getLast? = some '\n'
  · rw [if_pos hl]
    exact splitOnChar_ne_nil _ _
  · rw [if_neg hl]
    exact splitOnChar_ne_nil _ _

theorem pySplitlines_joinLines_concat {ls : List Str} (h : ls ≠ [])
    (hn : ∀ l ∈ ls, '\n' ∉ l) :
    pySplitlines (joinLines ls ++ ['\n']) = ls := by
  have hne : joinLines ls ++ ['\n'] ≠ [] := by simp
  rw [pySplitlines, if_neg hne, if_pos (List.getLast?_concat _), List.dropLast_concat]
  exact splitOnChar_joinLines h hn

theorem pyRstrip_joinLines_pySplitlines (s : Str) :
    pyRstrip (joinLines (pySplitlines s)) = pyRstrip s := by
  by_cases h0 : s = []
  · subst h0
    rfl
  · rw [pySplitlines, if_neg h0]
    by_cases hl : s.getLast? = some '\n'
    · rw [if_pos hl, joinLines_splitOnChar]
      have hsplit : s.dropLast ++ ['\n'] = s := List.dropLast_append_getLast? '\n' hl
      conv_rhs => rw [← hsplit]
      rw [pyRstrip_append_ws s.dropLast (by intro b hb; simp at hb; simp [hb])]
    · rw [if_neg hl, joinLines_splitOnChar]

theorem not_newline_mem_pySplitlines {s l : Str} (h : l ∈ pySplitlines s) :
    '\n' ∉ l := by
  by_cases h0 : s = []
  · subst h0
    simp [pySplitlines] at h
  · rw [pySplitlines, if_neg h0] at h
    by_cases hl : s.getLast? = some '\n'
    · rw [if_pos hl] at h
      exact not_mem_of_mem_splitOnChar h
    · rw [if_neg hl] at h
      exact not_mem_of_mem_splitOnChar h

/-! ## Marker and scan-step lemmas -/

theorem hashS_eq : hashS = ['#'] := by decide

theorem hashSpaceS_eq : hashSpaceS = ['#', ' '] := by decide

theorem codeMarkerS_eq : codeMarkerS = ['#', ' ', '%', '%'] := by decide

theorem isMarkerLine_of_blank {l : Str} (h : isBlankStr l = true) :
    isMarkerLine l = false := by
  by_contra hne
  rw [Bool.not_eq_false, isMarkerLine] at hne
  obtain ⟨t, rfl⟩ := isPrefixOf_exists.mp hne
  rw [isBlankStr, List.all_eq_true] at h
  have hmem : '#' ∈ codeMarkerS ++ t := by
    rw [codeMarkerS_eq]
    simp
  exact absurd (h '#' hmem) (by decide)

theorem pyRstrip_isPrefixOf (l : Str) : (pyRstrip l).isPrefixOf l = true := by
  have h := isPrefixOf_append_self (List.rdropWhile Char.isWhitespace l)
    (List.rtakeWhile Char.isWhitespace l)
  rwa [rdropWhile_append_rtakeWhile] at h

theorem isMarkerLine_pyRstrip_of {l : Str} (h : isMarkerLine (pyRstrip l) = true) :
    isMarkerLine l = true := by
  rw [isMarkerLine] at h ⊢
  exact isPrefixOf_trans h (pyRstrip_isPrefixOf l)

theorem stepLine_no_marker {l : Str} (st : ScanState) (h : isMarkerLine l = false) :
    stepLine st l = { st with currentLines := st.currentLines ++ [l] } := by
  rw [stepLine, if_neg (by simp [h])]

theorem foldl_stepLine_no_marker {ls : List Str} (st : ScanState)
    (h : ∀ l ∈ ls, isMarkerLine l = false) :
    ls.foldl stepLine st = ⟨st.cells, st.currentKind, st.currentLines ++ ls⟩ := by
  induction ls generalizing st with
  | nil => simp
  | cons l ls ih =>
    rw [List.foldl_cons, stepLine_no_marker st (h l (List.mem_cons_self l ls))]
    rw [ih _ fun x hx => h x (List.mem_cons_of_mem l hx)]
    simp

theorem decodeFrom_append (st : ScanState) (a b : List Str) :
    decodeFrom st (a ++ b) = decodeFrom (a.foldl stepLine st) b := by
  rw [decodeFrom, decodeFrom, List.foldl_append]

theorem flush_cell_some (k : Kind) (buf : List Str) :
    flush_cell (some k) buf = some (mkCell k buf) := by
  cases k <;> rfl

/-! ## mdDecodeLine computation lemmas -/

theorem mdDecodeLine_hashSpace (t : Str) : mdDecodeLine ('#' :: ' ' :: t) = t := by
  rw [mdDecodeLine, if_pos]
  · rfl
  · rw [hashSpaceS_eq]
    exact isPrefixOf_append_self ['#', ' '] t

theorem mdDecodeLine_hash_other {c : Char} (t : Str) (hc : c ≠ ' ') :
    mdDecodeLine ('#' :: c :: t) = pyLstrip (c :: t) := by
  rw [mdDecodeLine, if_neg, if_pos]
  · rfl
  · rw [hashS_eq]
    exact isPrefixOf_append_self ['#'] (c :: t)
  · rw [hashSpaceS_eq]
    intro h
    obtain ⟨u, hu⟩ := isPrefixOf_exists.mp h
    rw [List.cons_append, List.cons_append, List.nil_append] at hu
    injection hu with h1 h2
    injection h2 with h3 _
    exact hc h3

theorem mdDecodeLine_hash_nil : mdDecodeLine ['#'] = [] := by decide

theorem mdDecodeLine_no_hash {l : Str} (h : l.head? ≠ some '#') :
    mdDecodeLine l = l := by
  cases l with
  | nil => rfl
  | cons c r =>
    have hc : c ≠ '#' := by
      intro hcc
      exact h (by rw [hcc]; rfl)
    rw [mdDecodeLine, if_neg, if_neg]
    · rw [hashS_eq]
      intro hp
      obtain ⟨u, hu⟩ := isPrefixOf_exists.mp hp
      injection hu with h1 _
      exact hc h1
    · rw [hashSpaceS_eq]
      intro hp
      obtain ⟨u, hu⟩ := isPrefixOf_exists.mp hp
      injection hu with h1 _
      exact hc h1

theorem mdDecodeLine_blank {l : Str} (h : isBlankStr l = true) :
    isBlankStr (mdDecodeLine l) = true := by
  cases l with
  | nil => decide
  | cons c r =>
    have hc : c.isWhitespace = true := List.all_eq_true.mp h c (List.mem_cons_self c r)
    have hne : c ≠ '#' := by
      intro hcc
      rw [hcc] at hc
      exact absurd hc (by decide)
    rw [mdDecodeLine_no_hash (by simp [hne])]
    exact h

/-! ## Strip and append interaction lemmas -/

theorem dropWhile_append_of_ne {p : α → Bool} {u : List α} (w : List α)
    (h : u.dropWhile p ≠ []) : (u ++ w).dropWhile p = u.dropWhile p ++ w := by
  induction u with
  | nil => cases h rfl
  | cons a u ih =>
    by_cases hp : p a = true
    · rw [List.dropWhile_cons_of_pos hp] at h
      rw [List.cons_append, List.dropWhile_cons_of_pos hp, List.dropWhile_cons_of_pos hp]
      exact ih h
    · have hp' : p a = false := by simp [hp]
      rw [List.cons_append, List.dropWhile_cons_of_neg (by simp [hp']),
        List.dropWhile_cons_of_neg (by simp [hp']), List.cons_append]

theorem pyLstrip_eq_nil_of_ws {w : Str} (hw : ∀ c ∈ w, c.isWhitespace = true) :
    pyLstrip w = [] := by
  rw [pyLstrip, List.dropWhile_eq_nil_iff]
  exact hw

theorem pyLstrip_append_of_ne {u : Str} (w : Str) (h : pyLstrip u ≠ []) :
    pyLstrip (u ++ w) = pyLstrip u ++ w :=
  dropWhile_append_of_ne w h

theorem mdDecodeLine_nil : mdDecodeLine [] = [] := by decide

theorem mdDecodeLine_ws {w : Str} (hw : ∀ c ∈ w, c.isWhitespace = true) :
    mdDecodeLine w = w := by
  cases w with
  | nil => rfl
  | cons c r =>
    have hc : c ≠ '#' := by
      intro hcc
      have := hw c (List.mem_cons_self c r)
      rw [hcc] at this
      exact absurd this (by decide)
    exact mdDecodeLine_no_hash (by simp [hc])

theorem pyRstrip_eq_nil_of_ws {w : Str} (hw : ∀ c ∈ w, c.isWhitespace = true) :
    pyRstrip w = [] := by
  rw [pyRstrip, List.rdropWhile_eq_nil_iff]
  exact hw

/-- Stripping the trailing whitespace of a markdown content line before
decoding it changes the decoded line only up to trailing whitespace. -/
theorem md_rstrip_aux {rz w : Str} (hw : ∀ c ∈ w, c.isWhitespace = true)
    (hfix : pyRstrip rz = rz) :
    pyRstrip (mdDecodeLine rz) = pyRstrip (mdDecodeLine (rz ++ w)) := by
  cases rz with
  | nil =>
    rw [List.nil_append, mdDecodeLine_nil, mdDecodeLine_ws hw]
    rw [pyRstrip_eq_nil_of_ws hw]
    rfl
  | cons c₁ rest₁ =>
    by_cases hc₁ : c₁ = '#'
    · subst hc₁
      cases rest₁ with
      | nil =>
        rw [mdDecodeLine_hash_nil, List.cons_append, List.nil_append]
        cases w with
        | nil => rw [mdDecodeLine_hash_nil]
        | cons c₂ w' =>
          have hc₂ : c₂.isWhitespace = true := hw c₂ (List.mem_cons_self c₂ w')
          have hw' : ∀ c ∈ w', c.isWhitespace = true :=
            fun c hc => hw c (List.mem_cons_of_mem c₂ hc)
          by_cases hsp : c₂ = ' '
          · subst hsp
            rw [mdDecodeLine_hashSpace, pyRstrip_eq_nil_of_ws hw']
            decide
          · rw [mdDecodeLine_hash_other _ hsp,
              pyLstrip_eq_nil_of_ws (fun c hc => hw c hc)]
      | cons c₂ rest₂ =>
        by_cases hsp : c₂ = ' '
        · subst hsp
          rw [mdDecodeLine_hashSpace, List.cons_append, List.cons_append,
            mdDecodeLine_hashSpace]
          exact (pyRstrip_append_ws rest₂ hw).symm
        · rw [mdDecodeLine_hash_other _ hsp, List.cons_append, List.cons_append,
            mdDecodeLine_hash_other _ hsp]
          -- the tail after '#' is not all whitespace, since its last char is not
          have hlast : ∀ x, (c₂ :: rest₂).getLast? = some x → x.isWhitespace = false := by
            intro x hx
            refine getLast_not_ws_of_pyRstrip_fixed hfix (c := x) ?_
            rw [show ('#' :: c₂ :: rest₂ : Str) = ['#'] ++ (c₂ :: rest₂) from rfl]
            rw [List.getLast?_append_of_ne_nil _ (List.cons_ne_nil c₂ rest₂)]
            exact hx
          have hne : pyLstrip (c₂ :: rest₂) ≠ [] := by
            intro h0
            rw [pyLstrip, List.dropWhile_eq_nil_iff] at h0
            have hmem := List.getLast_mem (List.cons_ne_nil c₂ rest₂)
            have := h0 _ hmem
            rw [hlast _ (List.getLast?_eq_getLast _ (List.cons_ne_nil c₂ rest₂))] at this
            exact Bool.false_ne_true this
          rw [← List.cons_append, pyLstrip_append_of_ne w hne]
          exact (pyRstrip_append_ws _ hw).symm
    · have hhead : ((c₁ :: rest₁) ++ w).head? ≠ some '#' := by
        rw [List.cons_append]
        simp [hc₁]
      have hhead' : (c₁ :: rest₁ : Str).head? ≠ some '#' := by
        simp [hc₁]
      rw [mdDecodeLine_no_hash hhead', mdDecodeLine_no_hash hhead]
      exact (pyRstrip_append_ws _ hw).symm

theorem pyRstrip_mdDecodeLine_pyRstrip (z : Str) :
    pyRstrip (mdDecodeLine (pyRstrip z)) = pyRstrip (mdDecodeLine z) := by
  have hzw : pyRstrip z ++ List.rtakeWhile Char.isWhitespace z = z :=
    rdropWhile_append_rtakeWhile Char.isWhitespace z
  have h := @md_rstrip_aux (pyRstrip z) (List.rtakeWhile Char.isWhitespace z)
    (fun c hc => List.mem_rtakeWhile_imp hc) (pyRstrip_idem z)
  rwa [hzw] at h

/-! ## Blank-suffix and stripped-last-line invariance of flushing -/

theorem pyRstrip_joinLines_blank_concat {B : List Str} (buf : List Str)
    (hB : ∀ l ∈ B, isBlankStr l = true) :
    pyRstrip (joinLines (buf ++ B)) = pyRstrip (joinLines buf) := by
  induction B using List.reverseRecOn with
  | nil => simp
  | append_singleton B b ih =>
    have hb : isBlankStr b = true := hB b (by simp)
    rw [← List.append_assoc]
    by_cases h0 : buf ++ B = []
    · rw [h0, List.nil_append, joinLines_single]
      have hbuf : buf = [] := (List.append_eq_nil.mp h0).1
      rw [hbuf, joinLines_nil, pyRstrip_eq_nil_of_ws (List.all_eq_true.mp hb)]
      rfl
    · rw [joinLines_concat b h0, pyRstrip_append_ws _ ?_]
      · exact ih fun l hl => hB l (by simp [hl])
      · intro c hc
        rcases List.mem_cons.mp hc with rfl | hc
        · decide
        · exact List.all_eq_true.mp hb c hc

theorem pyRstrip_joinLines_concat_congr {a b : Str} (m : List Str)
    (hab : pyRstrip a = pyRstrip b) :
    pyRstrip (joinLines (m ++ [a])) = pyRstrip (joinLines (m ++ [b])) := by
  by_cases h0 : m = []
  · subst h0
    rw [List.nil_append, List.nil_append, joinLines_single, joinLines_single]
    rw [← pyRstrip_idem a, hab, pyRstrip_idem]
  · rw [joinLines_concat a h0, joinLines_concat b h0]
    rw [show ('\n' :: a : Str) = ['\n'] ++ a from rfl,
      show ('\n' :: b : Str) = ['\n'] ++ b from rfl,
      ← List.append_assoc, ← List.append_assoc]
    rw [pyRstrip_append_pyRstrip _ a, pyRstrip_append_pyRstrip _ b, hab]

theorem mkCell_blank_concat {B : List Str} (k : Kind) (buf : List Str)
    (hB : ∀ l ∈ B, isBlankStr l = true) : mkCell k (buf ++ B) = mkCell k buf := by
  cases k with
  | code =>
    show Cell.code _ = Cell.code _
    rw [pyRstrip_joinLines_blank_concat buf hB]
  | markdown =>
    show Cell.markdown _ = Cell.markdown _
    rw [List.map_append, pyRstrip_joinLines_blank_concat (buf.map mdDecodeLine) ?_]
    intro l hl
    obtain ⟨x, hx, rfl⟩ := List.mem_map.mp hl
    exact mdDecodeLine_blank (hB x hx)

theorem mkCell_concat_pyRstrip (k : Kind) (buf : List Str) (z : Str) :
    mkCell k (buf ++ [pyRstrip z]) = mkCell k (buf ++ [z]) := by
  cases k with
  | code =>
    show Cell.code _ = Cell.code _
    rw [pyRstrip_joinLines_concat_congr buf (pyRstrip_idem z)]
  | markdown =>
    show Cell.markdown _ = Cell.markdown _
    rw [List.map_append, List.map_append]
    simp only [List.map_cons, List.map_nil]
    rw [pyRstrip_joinLines_concat_congr (buf.map mdDecodeLine)
      (pyRstrip_mdDecodeLine_pyRstrip z)]

theorem flush_cell_blank_concat {B : List Str} (k : Option Kind) (buf : List Str)
    (hB : ∀ l ∈ B, isBlankStr l = true) :
    flush_cell k (buf ++ B) = flush_cell k buf := by
  cases k with
  | none => rfl
  | some k => rw [flush_cell_some, flush_cell_some, mkCell_blank_concat k buf hB]

theorem flush_cell_concat_pyRstrip (k : Option Kind) (buf : List Str) (z : Str) :
    flush_cell k (buf ++ [pyRstrip z]) = flush_cell k (buf ++ [z]) := by
  cases k with
  | none => rfl
  | some k => rw [flush_cell_some, flush_cell_some, mkCell_concat_pyRstrip k buf z]

theorem decodeFrom_blank_concat {B : List Str} (st : ScanState) (X : List Str)
    (hB : ∀ l ∈ B, isBlankStr l = true) :
    decodeFrom st (X ++ B) = decodeFrom st X := by
  rw [decodeFrom, decodeFrom, List.foldl_append]
  rw [foldl_stepLine_no_marker _ (fun l hl => isMarkerLine_of_blank (hB l hl))]
  rw [finishScan, finishScan]
  rw [flush_cell_blank_concat _ _ hB]

theorem decodeFrom_concat_pyRstrip {z : Str} (st : ScanState) (M : List Str)
    (hz : isMarkerLine z = true → pyRstrip z = z) :
    decodeFrom st (M ++ [pyRstrip z]) = decodeFrom st (M ++ [z]) := by
  by_cases hmz : isMarkerLine z = true
  · rw [hz hmz]
  · have hmzf : isMarkerLine z = false := by simp [hmz]
    have hmz' : isMarkerLine (pyRstrip z) = false := by
      by_contra hne
      rw [Bool.not_eq_false] at hne
      rw [isMarkerLine_pyRstrip_of hne] at hmzf
      simp at hmzf
    rw [decodeFrom, decodeFrom, List.foldl_append, List.foldl_append]
    rw [List.foldl_cons, List.foldl_nil, List.foldl_cons, List.foldl_nil]
    rw [stepLine_no_marker _ hmz', stepLine_no_marker _ hmzf]
    rw [finishScan, finishScan]
    rw [flush_cell_concat_pyRstrip _ _ z]

/-! ## The final whole-blob rstrip does not change the decoded document -/

theorem rdropWhile_concat_not {p : α → Bool} {l M : List α} {z : α}
    (h : List.rdropWhile p l = M ++ [z]) : p z = false := by
  have hne : List.rdropWhile p l ≠ [] := by
    rw [h]
    simp
  have h2 := List.rdropWhile_last_not p l hne
  have h3 : (List.rdropWhile p l).getLast hne = z := by
    have h4 := List.getLast?_eq_getLast (List.rdropWhile p l) hne
    have h5 : (List.rdropWhile p l).getLast? = some z := by
      rw [h]
      exact List.getLast?_concat M
    rw [h4] at h5
    injection h5
  rw [h3, Bool.not_eq_true] at h2
  exact h2

theorem pyRstrip_ne_nil_of_not_blank {z : Str} (h : isBlankStr z = false) :
    pyRstrip z ≠ [] := by
  intro h0
  rw [pyRstrip_eq_nil_iff] at h0
  rw [h0] at h
  exact Bool.false_ne_true h.symm

theorem mem_of_mem_pyRstrip {z : Str} {c : Char} (h : c ∈ pyRstrip z) : c ∈ z := by
  have hsplit := rdropWhile_append_rtakeWhile Char.isWhitespace z
  rw [← hsplit]
  exact List.mem_append_left _ h

theorem decodeLines_pySplitlines_pyRstrip {L : List Str}
    (hn : ∀ l ∈ L, '\n' ∉ l)
    (hm : ∀ l ∈ L, isMarkerLine l = true → pyRstrip l = l) :
    decodeLines (pySplitlines (pyRstrip (joinLines L) ++ ['\n'])) = decodeLines L := by
  have hLsplit : List.rdropWhile isBlankStr L ++ List.rtakeWhile isBlankStr L = L :=
    rdropWhile_append_rtakeWhile isBlankStr L
  have hW : ∀ l ∈ List.rtakeWhile isBlankStr L, isBlankStr l = true :=
    fun l hl => List.mem_rtakeWhile_imp hl
  rcases List.eq_nil_or_concat (List.rdropWhile isBlankStr L) with h1 | ⟨M, z, h1⟩
  · -- every line of L is blank: the stripped blob is a single newline
    have hall : ∀ l ∈ L, isBlankStr l = true := List.rdropWhile_eq_nil_iff.mp h1
    have hblank : pyRstrip (joinLines L) = [] :=
      pyRstrip_eq_nil_of_ws (List.all_eq_true.mp (joinLines_blank hall))
    rw [hblank, List.nil_append]
    have h2 : decodeLines (pySplitlines ['\n']) = [] := by decide
    rw [h2, decodeLines, decodeFrom,
      foldl_stepLine_no_marker _ (fun l hl => isMarkerLine_of_blank (hall l hl))]
    rfl
  · rw [List.concat_eq_append] at h1
    have hzblank : isBlankStr z = false := rdropWhile_concat_not h1
    have hmemL : ∀ x ∈ M ++ [z], x ∈ L := by
      intro x hx
      rw [← hLsplit, h1]
      exact List.mem_append_left _ hx
    have hzL : z ∈ L := hmemL z (by simp)
    have hnz : pyRstrip z ≠ [] := pyRstrip_ne_nil_of_not_blank hzblank
    have hstep1 : pyRstrip (joinLines L) = joinLines (M ++ [pyRstrip z]) := by
      conv_lhs => rw [← hLsplit, h1]
      rw [pyRstrip_joinLines_blank_concat (M ++ [z]) hW]
      by_cases hM : M = []
      · subst hM
        rw [List.nil_append, List.nil_append, joinLines_single, joinLines_single]
      · rw [joinLines_concat z hM, joinLines_concat (pyRstrip z) hM]
        rw [show joinLines M ++ '\n' :: z = (joinLines M ++ ['\n']) ++ z from by simp]
        rw [show joinLines M ++ '\n' :: pyRstrip z = (joinLines M ++ ['\n']) ++ pyRstrip z
          from by simp]
        exact rdropWhile_append_of_ne _ hnz
    have hnl : ∀ l ∈ M ++ [pyRstrip z], '\n' ∉ l := by
      intro l hl
      rcases List.mem_append.mp hl with hl | hl
      · exact hn l (hmemL l (List.mem_append_left _ hl))
      · rcases List.mem_cons.mp hl with rfl | hl
        · intro hc
          exact hn z hzL (mem_of_mem_pyRstrip hc)
        · simp at hl
    rw [hstep1, pySplitlines_joinLines_concat (by simp) hnl]
    have hd1 : decodeLines (M ++ [pyRstrip z]) = decodeLines (M ++ [z]) := by
      rw [decodeLines, decodeLines]
      exact decodeFrom_concat_pyRstrip _ M (hm z hzL)
    rw [hd1]
    have hd2 : decodeLines ((M ++ [z]) ++ List.rtakeWhile isBlankStr L) =
        decodeLines (M ++ [z]) := by
      rw [decodeLines, decodeLines]
      exact decodeFrom_blank_concat _ _ hW
    rw [← hd2, ← h1, hLsplit]

/-! ## Blocks: marker line plus content lines -/

theorem isMarkerLine_markerOf (k : Kind) : isMarkerLine (markerOf k) = true := by
  cases k <;> decide

theorem kindOfMarker_markerOf (k : Kind) : kindOfMarker (markerOf k) = k := by
  cases k <;> decide

theorem pyRstrip_markerOf (k : Kind) : pyRstrip (markerOf k) = markerOf k := by
  cases k <;> decide

theorem isMarkerLine_nil : isMarkerLine [] = false := by decide

theorem stepLine_marker {l : Str} (st : ScanState) (h : isMarkerLine l = true) :
    stepLine st l = ⟨st.cells ++ (flush_cell st.currentKind st.currentLines).toList,
      some (kindOfMarker l), []⟩ := by
  rw [stepLine, if_pos (by simp [h])]

/-- Scanning rendered blocks accumulates exactly one cell per block. -/
theorem decodeFrom_renderBlocks (bs : List (Kind × List Str))
    (hok : ∀ b ∈ bs, ∀ l ∈ b.2, isMarkerLine l = false)
    (cs : List Cell) (ok : Option Kind) (buf : List Str) :
    decodeFrom ⟨cs, ok, buf⟩ (renderBlocks bs) =
      (cs ++ (flush_cell ok buf).toList) ++ bs.map (fun b => mkCell b.1 b.2) := by
  induction bs generalizing cs ok buf with
  | nil => simp [renderBlocks, decodeFrom, finishScan]
  | cons b rest ih =>
    rcases b with ⟨k, core⟩
    have hcore : ∀ l ∈ core, isMarkerLine l = false :=
      fun l hl => hok (k, core) (List.mem_cons_self _ _) l hl
    cases rest with
    | nil =>
      rw [show renderBlocks [(k, core)] = markerOf k :: core from rfl]
      rw [decodeFrom, List.foldl_cons, stepLine_marker _ (isMarkerLine_markerOf k),
        kindOfMarker_markerOf]
      rw [foldl_stepLine_no_marker _ hcore]
      rw [finishScan]
      rw [flush_cell_some]
      simp [List.nil_append]
    | cons r rs =>
      rw [show renderBlocks ((k, core) :: r :: rs) =
        (renderCore (k, core) ++ [[]]) ++ renderBlocks (r :: rs) from by
          rw [renderBlocks]
          simp [List.append_assoc]]
      rw [decodeFrom_append]
      rw [show renderCore (k, core) ++ [[]] = markerOf k :: (core ++ [[]]) from by
        rw [renderCore]
        simp]
      rw [List.foldl_cons, stepLine_marker _ (isMarkerLine_markerOf k),
        kindOfMarker_markerOf]
      rw [foldl_stepLine_no_marker _ ?_]
      · rw [List.nil_append]
        rw [ih (fun b hb => hok b (List.mem_cons_of_mem _ hb))]
        rw [flush_cell_blank_concat (some k) core ?_]
        · rw [flush_cell_some]
          simp [List.append_assoc]
        · intro l hl
          simp at hl
          simp [hl, isBlankStr]
      · intro l hl
        rcases List.mem_append.mp hl with hl | hl
        · exact hcore l hl
        · simp at hl
          rw [hl]
          exact isMarkerLine_nil

/-- Decoding rendered blocks from the initial state yields one cell per block. -/
theorem decodeLines_renderBlocks (bs : List (Kind × List Str))
    (hok : ∀ b ∈ bs, ∀ l ∈ b.2, isMarkerLine l = false) :
    decodeLines (renderBlocks bs) = bs.map (fun b => mkCell b.1 b.2) := by
  rw [decodeLines, decodeFrom_renderBlocks bs hok]
  rfl

/-! ## Wellformedness of blocks -/

theorem noNewline_iff {l : Str} : noNewline l = true ↔ '\n' ∉ l := by
  rw [noNewline, List.all_eq_true]
  constructor
  · intro h hm
    have := h _ hm
    simp at this
  · intro h c hc
    have hcc : c ≠ '\n' := fun hcc => h (hcc ▸ hc)
    simp [hcc]

theorem blockOK_no_marker {k : Kind} {core : List Str}
    (h : blockOK (k, core) = true) : ∀ l ∈ core, isMarkerLine l = false := by
  rw [blockOK, Bool.and_eq_true, Bool.and_eq_true] at h
  intro l hl
  have := List.all_eq_true.mp h.1.1 l hl
  rw [Bool.and_eq_true] at this
  simpa using this.1

theorem blockOK_no_newline {k : Kind} {core : List Str}
    (h : blockOK (k, core) = true) : ∀ l ∈ core, '\n' ∉ l := by
  rw [blockOK, Bool.and_eq_true, Bool.and_eq_true] at h
  intro l hl
  have := List.all_eq_true.mp h.1.1 l hl
  rw [Bool.and_eq_true] at this
  exact noNewline_iff.mp this.2

theorem blockOK_md_lines {core : List Str}
    (h : blockOK (Kind.markdown, core) = true) : ∀ l ∈ core, mdLineOK l = true := by
  rw [blockOK, Bool.and_eq_true, Bool.and_eq_true] at h
  exact List.all_eq_true.mp h.1.2

theorem blockOK_last {k : Kind} {core : List Str} {z : Str}
    (h : blockOK (k, core) = true) (hz : core.getLast? = some z) :
    pyRstrip z = z ∧ (k = Kind.code → z ≠ []) ∧
      (k = Kind.markdown → hashSpaceS.isPrefixOf z = true) := by
  rw [blockOK, Bool.and_eq_true, Bool.and_eq_true] at h
  have hl := h.2
  rw [lastLineOK, hz] at hl
  rw [Bool.and_eq_true] at hl
  refine ⟨eq_of_beq hl.1, ?_, ?_⟩
  · intro hk
    subst hk
    have := hl.2
    simp at this
    exact this
  · intro hk
    subst hk
    exact hl.2

/-! ## Per-line markdown round trip -/

theorem pyStrip_eq_nil_iff {s : Str} : pyStrip s = [] ↔ isBlankStr s = true := by
  rw [pyStrip]
  constructor
  · intro h
    rw [pyLstrip, List.dropWhile_eq_nil_iff] at h
    rcases List.eq_nil_or_concat (pyRstrip s) with h0 | ⟨M, z, h0⟩
    · rwa [← pyRstrip_eq_nil_iff]
    · rw [List.concat_eq_append] at h0
      have hz : z.isWhitespace = true := h z (by rw [h0]; simp)
      have hlast := getLast_not_ws_of_pyRstrip_fixed (pyRstrip_idem s)
        (c := z) (by rw [h0, List.getLast?_concat])
      rw [hlast] at hz
      exact absurd hz (by decide)
  · intro h
    rw [pyRstrip_eq_nil_of_ws (List.all_eq_true.mp h)]
    rfl

theorem mdEncodeLine_of_not_blank {l : Str} (h : isBlankStr l = false) :
    mdEncodeLine l = hashSpaceS ++ l := by
  rw [mdEncodeLine, if_neg]
  intro h0
  rw [pyStrip_eq_nil_iff, h] at h0
  exact Bool.false_ne_true h0

theorem mdEncodeLine_of_blank {l : Str} (h : isBlankStr l = true) :
    mdEncodeLine l = hashS := by
  rw [mdEncodeLine, if_pos (pyStrip_eq_nil_iff.mpr h)]

theorem hashSpace_append_eq (t : Str) : hashSpaceS ++ t = '#' :: ' ' :: t := by
  rw [hashSpaceS_eq]
  rfl

theorem md_line_roundtrip {l : Str} (h : mdLineOK l = true) :
    mdEncodeLine (mdDecodeLine l) = l := by
  rw [mdLineOK, Bool.or_eq_true] at h
  rcases h with h | h
  · have hl : l = hashS := eq_of_beq h
    subst hl
    decide
  · rw [Bool.and_eq_true] at h
    obtain ⟨t, rfl⟩ := isPrefixOf_exists.mp h.1
    have hdrop : (hashSpaceS ++ t).drop 2 = t := by
      rw [hashSpace_append_eq]
      rfl
    have htblank : isBlankStr t = false := by
      have h2 := h.2
      rw [hdrop] at h2
      simpa using h2
    rw [hashSpace_append_eq, mdDecodeLine_hashSpace,
      mdEncodeLine_of_not_blank htblank, hashSpace_append_eq]

theorem mem_mdDecodeLine {l : Str} {c : Char} (h : c ∈ mdDecodeLine l) : c ∈ l := by
  rw [mdDecodeLine] at h
  split_ifs at h
  · exact List.drop_subset 2 l h
  · rw [pyLstrip] at h
    exact List.drop_subset 1 l ((List.dropWhile_suffix _).subset h)
  · exact h

/-! ## Re-encoding a decoded block -/

theorem pySplitlines_joinLines_fixed {D : List Str} {z : Str}
    (hD : D.getLast? = some z) (hzne : z ≠ [])
    (hlastws : ∀ c, z.getLast? = some c → c.isWhitespace = false)
    (hnl : ∀ l ∈ D, '\n' ∉ l) :
    pyRstrip (joinLines D) = joinLines D ∧ joinLines D ≠ [] ∧
      pySplitlines (joinLines D) = D := by
  have hsplit : D.dropLast ++ [z] = D := List.dropLast_append_getLast? z hD
  have hgl : (joinLines D).getLast? = z.getLast? := by
    conv_lhs => rw [← hsplit]
    exact joinLines_getLast? hzne
  have hfixJ : pyRstrip (joinLines D) = joinLines D :=
    pyRstrip_eq_self_of_getLast (fun c hc => hlastws c (hgl ▸ hc))
  have hneJ : joinLines D ≠ [] := by
    intro h0
    rw [h0, List.getLast?_eq_getLast z hzne] at hgl
    simp at hgl
  have hlastnl : ¬(joinLines D).getLast? = some '\n' := by
    rw [hgl]
    intro heq
    have := hlastws '\n' heq
    exact absurd this (by decide)
  refine ⟨hfixJ, hneJ, ?_⟩
  rw [pySplitlines, if_neg hneJ, if_neg hlastnl]
  refine splitOnChar_joinLines ?_ hnl
  intro h0
  rw [h0] at hD
  simp at hD

/-- Re-encoding the cell decoded from a well-formed block reproduces the
block's lines followed by the blank separator. -/
theorem cellLines_mkCell {k : Kind} {core : List Str} (h : blockOK (k, core) = true) :
    cellLines (mkCell k core) = renderCore (k, core) ++ [[]] := by
  rcases List.eq_nil_or_concat core with rfl | ⟨M, z, hcore⟩
  · cases k <;> decide
  · rw [List.concat_eq_append] at hcore
    subst hcore
    have hgl : (M ++ [z]).getLast? = some z := List.getLast?_concat M
    obtain ⟨hfixz, hcode, hmd⟩ := blockOK_last h hgl
    cases k with
    | code =>
      have hzne : z ≠ [] := hcode rfl
      have hws : ∀ c, z.getLast? = some c → c.isWhitespace = false :=
        fun c hc => getLast_not_ws_of_pyRstrip_fixed hfixz hc
      obtain ⟨hfixJ, hneJ, hsplitJ⟩ :=
        pySplitlines_joinLines_fixed hgl hzne hws (blockOK_no_newline h)
      show cellLines (Cell.code (pyRstrip (joinLines (M ++ [z])))) = _
      rw [hfixJ]
      simp only [cellLines]
      rw [if_pos hneJ, hsplitJ]
      simp [renderCore, markerOf]
    | markdown =>
      have hpre : hashSpaceS.isPrefixOf z = true := hmd rfl
      obtain ⟨t, rfl⟩ := isPrefixOf_exists.mp hpre
      have hmdz : mdLineOK (hashSpaceS ++ t) = true := blockOK_md_lines h _ (by simp)
      have hdrop : (hashSpaceS ++ t).drop 2 = t := by
        rw [hashSpace_append_eq]
        rfl
      have htblank : isBlankStr t = false := by
        rw [mdLineOK, Bool.or_eq_true] at hmdz
        rcases hmdz with h1 | h1
        · have h2 := eq_of_beq h1
          rw [hashSpace_append_eq, hashS_eq] at h2
          injection h2 with _ h3
          exact absurd h3 (by simp)
        · rw [Bool.and_eq_true] at h1
          have h2 := h1.2
          rw [hdrop] at h2
          simpa using h2
      have htne : t ≠ [] := by
        intro h0
        rw [h0] at htblank
        exact absurd htblank (by decide)
      have hzgl : (hashSpaceS ++ t).getLast? = t.getLast? :=
        List.getLast?_append_of_ne_nil _ htne
      have hwst : ∀ c, t.getLast? = some c → c.isWhitespace = false := by
        intro c hc
        refine getLast_not_ws_of_pyRstrip_fixed hfixz ?_
        rw [hzgl]
        exact hc
      have hdecz : mdDecodeLine (hashSpaceS ++ t) = t := by
        rw [hashSpace_append_eq]
        exact mdDecodeLine_hashSpace t
      have hmapD : (M ++ [hashSpaceS ++ t]).map mdDecodeLine =
          M.map mdDecodeLine ++ [t] := by
        rw [List.map_append, List.map_cons, List.map_nil, hdecz]
      have hglD : (M.map mdDecodeLine ++ [t]).getLast? = some t := List.getLast?_concat _
      have hnlD : ∀ l ∈ M.map mdDecodeLine ++ [t], '\n' ∉ l := by
        intro l hl hmem
        rcases List.mem_append.mp hl with hl | hl
        · obtain ⟨x, hx, rfl⟩ := List.mem_map.mp hl
          exact blockOK_no_newline h x (List.mem_append_left _ hx) (mem_mdDecodeLine hmem)
        · have hlt : l = t := by simpa using hl
          rw [hlt] at hmem
          refine blockOK_no_newline h (hashSpaceS ++ t) (by simp) ?_
          rw [hashSpace_append_eq]
          exact List.mem_cons_of_mem _ (List.mem_cons_of_mem _ hmem)
      obtain ⟨hfixJ, hneJ, hsplitJ⟩ := pySplitlines_joinLines_fixed hglD htne hwst hnlD
      show cellLines (Cell.markdown
        (pyRstrip (joinLines ((M ++ [hashSpaceS ++ t]).map mdDecodeLine)))) = _
      rw [hmapD, hfixJ]
      simp only [cellLines]
      rw [hsplitJ]
      have hreenc : (M.map mdDecodeLine ++ [t]).map mdEncodeLine =
          M ++ [hashSpaceS ++ t] := by
        rw [List.map_append, List.map_map, List.map_cons, List.map_nil]
        congr 1
        · have hid : ∀ a ∈ M, (mdEncodeLine ∘ mdDecodeLine) a = id a := by
            intro a ha
            simp only [Function.comp_apply, id_eq]
            exact md_line_roundtrip (blockOK_md_lines h a (List.mem_append_left _ ha))
          rw [List.map_congr_left hid, List.map_id]
        · rw [mdEncodeLine_of_not_blank htblank]
      rw [hreenc]
      simp [renderCore, markerOf]

/-! ## Assembling the text-to-text round trip -/

theorem mem_renderBlocks {bs : List (Kind × List Str)} {l : Str}
    (h : l ∈ renderBlocks bs) :
    l = [] ∨ ∃ b ∈ bs, l = markerOf b.1 ∨ l ∈ b.2 := by
  induction bs with
  | nil => simp [renderBlocks] at h
  | cons b rest ih =>
    cases rest with
    | nil =>
      rw [show renderBlocks [b] = renderCore b from rfl, renderCore] at h
      rcases List.mem_cons.mp h with rfl | h
      · exact Or.inr ⟨b, by simp, Or.inl rfl⟩
      · exact Or.inr ⟨b, by simp, Or.inr h⟩
    | cons r rs =>
      rw [show renderBlocks (b :: r :: rs) =
        renderCore b ++ [[]] ++ renderBlocks (r :: rs) from rfl] at h
      rcases List.mem_append.mp h with h | h
      · rcases List.mem_append.mp h with h | h
        · rw [renderCore] at h
          rcases List.mem_cons.mp h with rfl | h
          · exact Or.inr ⟨b, by simp, Or.inl rfl⟩
          · exact Or.inr ⟨b, by simp, Or.inr h⟩
        · left
          simpa using h
      · rcases ih h with h | ⟨x, hx, hh⟩
        · exact Or.inl h
        · exact Or.inr ⟨x, List.mem_cons_of_mem _ hx, hh⟩

theorem no_newline_markerOf (k : Kind) : '\n' ∉ markerOf k := by
  cases k <;> decide

theorem renderBlocks_ne_nil {bs : List (Kind × List Str)} (h : bs ≠ []) :
    renderBlocks bs ≠ [] := by
  cases bs with
  | nil => cases h rfl
  | cons b rest =>
    cases rest with
    | nil => simp [renderBlocks, renderCore]
    | cons r rs => simp [renderBlocks, renderCore]

theorem flatten_cellLines_mkCell {bs : List (Kind × List Str)} (hne : bs ≠ [])
    (hok : ∀ b ∈ bs, blockOK b = true) :
    ((bs.map (fun b => mkCell b.1 b.2)).map cellLines).flatten =
      renderBlocks bs ++ [[]] := by
  induction bs with
  | nil => cases hne rfl
  | cons b rest ih =>
    rcases b with ⟨k, core⟩
    have hb : blockOK (k, core) = true := hok (k, core) (List.mem_cons_self _ _)
    cases rest with
    | nil =>
      simp only [List.map_cons, List.map_nil, List.flatten_cons, List.flatten_nil,
        List.append_nil]
      rw [cellLines_mkCell hb]
      rw [show renderBlocks [(k, core)] = renderCore (k, core) from rfl]
    | cons r rs =>
      simp only [List.map_cons, List.flatten_cons]
      rw [cellLines_mkCell hb]
      have hrest := ih (by simp) (fun x hx => hok x (List.mem_cons_of_mem _ hx))
      simp only [List.map_cons, List.flatten_cons] at hrest ⊢
      rw [hrest]
      rw [show renderBlocks ((k, core) :: r :: rs) =
        renderCore (k, core) ++ [[]] ++ renderBlocks (r :: rs) from rfl]
      simp [List.append_assoc]

/-- C2: for any well-formed marked-text blob — a blob assembled from blocks
whose marker lines are exactly the two marker forms, whose content lines
contain no newline and never start with the marker token, whose markdown
content lines are properly prefixed, and whose nonempty cores end in a line
that decodes to non-blank content and carries no trailing whitespace —
re-encoding the Document produced by decoding the blob reproduces the same
blob up to trailing-whitespace normalization: the output is the blob with
trailing whitespace stripped and the final newline restored. -/
theorem C2_text_document_text_roundtrip (bs : List (Kind × List Str))
    (hne : bs ≠ []) (hok : ∀ b ∈ bs, blockOK b = true) :
    ipynb_to_percent_script
        (percent_script_to_ipynb (joinLines (renderBlocks bs) ++ ['\n'])) =
      pyRstrip (joinLines (renderBlocks bs) ++ ['\n']) ++ ['\n'] := by
  have hnoN : ∀ l ∈ renderBlocks bs, '\n' ∉ l := by
    intro l hl
    rcases mem_renderBlocks hl with rfl | ⟨b, hb, h | h⟩
    · simp
    · rw [h]
      exact no_newline_markerOf b.1
    · exact blockOK_no_newline (hok b hb) l h
  have hRne := renderBlocks_ne_nil hne
  rw [percent_script_to_ipynb, pySplitlines_joinLines_concat hRne hnoN]
  rw [decodeLines_renderBlocks bs (fun b hb l hl => blockOK_no_marker (hok b hb) l hl)]
  rw [ipynb_to_percent_script]
  rw [flatten_cellLines_mkCell hne hok]
  rw [joinLines_concat _ hRne]

/-- Witness for C2 at a concrete one-block blob. -/
theorem C2_text_document_text_roundtrip_witness :
    ([(Kind.code, [['a']])] : List (Kind × List Str)) ≠ [] ∧
      ipynb_to_percent_script
          (percent_script_to_ipynb
            (joinLines (renderBlocks [(Kind.code, [['a']])]) ++ ['\n'])) =
        pyRstrip (joinLines (renderBlocks [(Kind.code, [['a']])]) ++ ['\n']) ++ ['\n'] :=
  ⟨by decide, C2_text_document_text_roundtrip [(Kind.code, [['a']])] (by decide)
    (by decide)⟩

/-! ## Document-to-text-to-document round trip -/

theorem percentS_eq : ("%%".data : Str) = ['%', '%'] := by decide

theorem isMarkerLine_hashSpace_append (l : Str) :
    isMarkerLine (hashSpaceS ++ l) = ("%%".data).isPrefixOf l := by
  rw [isMarkerLine, codeMarkerS_eq, hashSpace_append_eq, percentS_eq]
  simp [List.isPrefixOf]

theorem cellOK_code_elim {src : Str} (h : cellOK (Cell.code src) = true) :
    isBlankStr src = false ∧ ∀ l ∈ pySplitlines src, isMarkerLine l = false := by
  simp only [cellOK, Bool.and_eq_true] at h
  refine ⟨by simpa using h.1, ?_⟩
  intro l hl
  have := List.all_eq_true.mp h.2 l hl
  simpa using this

theorem cellOK_md_elim {src : Str} (h : cellOK (Cell.markdown src) = true) :
    isBlankStr src = false ∧
      ∀ l ∈ pySplitlines src,
        ("%%".data).isPrefixOf l = false ∧ (l = [] ∨ isBlankStr l = false) := by
  simp only [cellOK, Bool.and_eq_true] at h
  refine ⟨by simpa using h.1, ?_⟩
  intro l hl
  have h2 := List.all_eq_true.mp h.2 l hl
  rw [Bool.and_eq_true, Bool.or_eq_true] at h2
  refine ⟨by simpa using h2.1, ?_⟩
  rcases h2.2 with h3 | h3
  · left
    simpa using h3
  · right
    simpa using h3

theorem src_ne_nil_of_not_blank {src : Str} (h : isBlankStr src = false) :
    src ≠ [] := by
  intro h0
  rw [h0] at h
  exact absurd h (by decide)

theorem cellLines_eq_of_ok {c : Cell} (h : cellOK c = true) :
    cellLines c = renderCore (blockOfCell c) ++ [[]] := by
  cases c with
  | code src => rfl
  | markdown src => rfl
  | other t s => simp [cellOK] at h

theorem blockOfCell_no_marker {c : Cell} (h : cellOK c = true) :
    ∀ l ∈ (blockOfCell c).2, isMarkerLine l = false := by
  cases c with
  | code src =>
    obtain ⟨hb, hm⟩ := cellOK_code_elim h
    intro l hl
    simp only [blockOfCell] at hl
    rw [if_pos (src_ne_nil_of_not_blank hb)] at hl
    exact hm l hl
  | markdown src =>
    obtain ⟨hb, hm⟩ := cellOK_md_elim h
    intro l hl
    simp only [blockOfCell] at hl
    obtain ⟨x, hx, rfl⟩ := List.mem_map.mp hl
    by_cases hbx : isBlankStr x = true
    · rw [mdEncodeLine_of_blank hbx, hashS_eq]
      decide
    · rw [Bool.not_eq_true] at hbx
      rw [mdEncodeLine_of_not_blank hbx, isMarkerLine_hashSpace_append]
      exact (hm x hx).1
  | other t s => simp [cellOK] at h

theorem blockOfCell_no_newline {c : Cell} (h : cellOK c = true) :
    ∀ l ∈ (blockOfCell c).2, '\n' ∉ l := by
  cases c with
  | code src =>
    intro l hl
    simp only [blockOfCell] at hl
    rw [if_pos (src_ne_nil_of_not_blank (cellOK_code_elim h).1)] at hl
    exact not_newline_mem_pySplitlines hl
  | markdown src =>
    intro l hl
    simp only [blockOfCell] at hl
    obtain ⟨x, hx, rfl⟩ := List.mem_map.mp hl
    intro hmem
    by_cases hbx : isBlankStr x = true
    · rw [mdEncodeLine_of_blank hbx, hashS_eq] at hmem
      simp at hmem
    · rw [Bool.not_eq_true] at hbx
      rw [mdEncodeLine_of_not_blank hbx, hashSpace_append_eq] at hmem
      rcases List.mem_cons.mp hmem with h1 | hmem
      · exact absurd h1 (by decide)
      · rcases List.mem_cons.mp hmem with h1 | hmem
        · exact absurd h1 (by decide)
        · exact not_newline_mem_pySplitlines hx hmem
  | other t s => simp [cellOK] at h

theorem md_enc_dec_line {l : Str} (hb : l = [] ∨ isBlankStr l = false) :
    mdDecodeLine (mdEncodeLine l) = l := by
  rcases hb with rfl | hb
  · decide
  · rw [mdEncodeLine_of_not_blank hb, hashSpace_append_eq, mdDecodeLine_hashSpace]

theorem cellKS_mkCell_blockOfCell {c : Cell} (h : cellOK c = true) :
    cellKS (mkCell (blockOfCell c).1 (blockOfCell c).2) = cellKS c := by
  cases c with
  | code src =>
    have hsne := src_ne_nil_of_not_blank (cellOK_code_elim h).1
    show cellKS (mkCell Kind.code (if src ≠ [] then pySplitlines src else [])) = _
    rw [if_pos hsne]
    show (some Kind.code, pyRstrip (pyRstrip (joinLines (pySplitlines src)))) =
      (some Kind.code, pyRstrip src)
    rw [pyRstrip_idem, pyRstrip_joinLines_pySplitlines]
  | markdown src =>
    have hlines := (cellOK_md_elim h).2
    show cellKS (mkCell Kind.markdown ((pySplitlines src).map mdEncodeLine)) = _
    have hmap : ((pySplitlines src).map mdEncodeLine).map mdDecodeLine =
        pySplitlines src := by
      rw [List.map_map]
      have hid : ∀ a ∈ pySplitlines src, (mdDecodeLine ∘ mdEncodeLine) a = id a := by
        intro a ha
        simp only [Function.comp_apply, id_eq]
        exact md_enc_dec_line (hlines a ha).2
      rw [List.map_congr_left hid, List.map_id]
    show (some Kind.markdown,
        pyRstrip (pyRstrip (joinLines (((pySplitlines src).map mdEncodeLine).map
          mdDecodeLine)))) = (some Kind.markdown, pyRstrip src)
    rw [hmap, pyRstrip_idem, pyRstrip_joinLines_pySplitlines]
  | other t s => simp [cellOK] at h

theorem flatten_cellLines_of_ok {cells : List Cell} (hne : cells ≠ [])
    (hok : ∀ c ∈ cells, cellOK c = true) :
    (cells.map cellLines).flatten = renderBlocks (cells.map blockOfCell) ++ [[]] := by
  induction cells with
  | nil => cases hne rfl
  | cons c rest ih =>
    cases rest with
    | nil =>
      simp only [List.map_cons, List.map_nil, List.flatten_cons, List.flatten_nil,
        List.append_nil]
      rw [cellLines_eq_of_ok (hok c (by simp))]
      rw [show renderBlocks [blockOfCell c] = renderCore (blockOfCell c) from rfl]
    | cons r rs =>
      simp only [List.map_cons, List.flatten_cons]
      rw [cellLines_eq_of_ok (hok c (by simp))]
      have hrest := ih (by simp) (fun x hx => hok x (List.mem_cons_of_mem _ hx))
      simp only [List.map_cons, List.flatten_cons] at hrest ⊢
      rw [hrest]
      rw [show renderBlocks (blockOfCell c :: blockOfCell r :: rs.map blockOfCell) =
        renderCore (blockOfCell c) ++ [[]] ++
          renderBlocks (blockOfCell r :: rs.map blockOfCell) from rfl]
      simp [List.append_assoc]

/-- C1 (amended): for every Document of Code and Markdown cells whose sources
are non-blank, whose code source lines never start with the marker token,
and whose markdown source lines never start with a percent pair and are
empty whenever whitespace-only, decoding the encoder's output yields a
Document with the same ordered sequence of (kind,
source-with-trailing-whitespace-stripped) pairs. -/
theorem C1_document_text_document_roundtrip (cells : List Cell)
    (hok : ∀ c ∈ cells, cellOK c = true) :
    (percent_script_to_ipynb (ipynb_to_percent_script cells)).map cellKS =
      cells.map cellKS := by
  cases cells with
  | nil => decide
  | cons c₀ rest =>
    have hne : (c₀ :: rest : List Cell) ≠ [] := by simp
    have hnoM : ∀ b ∈ (c₀ :: rest).map blockOfCell, ∀ l ∈ b.2,
        isMarkerLine l = false := by
      intro b hb l hl
      obtain ⟨c, hc, rfl⟩ := List.mem_map.mp hb
      exact blockOfCell_no_marker (hok c hc) l hl
    have hnoN : ∀ l ∈ renderBlocks ((c₀ :: rest).map blockOfCell) ++ [[]],
        '\n' ∉ l := by
      intro l hl
      rcases List.mem_append.mp hl with hl | hl
      · rcases mem_renderBlocks hl with rfl | ⟨b, hb, hmk | hmem⟩
        · simp
        · rw [hmk]
          exact no_newline_markerOf b.1
        · obtain ⟨c, hc, rfl⟩ := List.mem_map.mp hb
          exact blockOfCell_no_newline (hok c hc) l hmem
      · have : l = [] := by simpa using hl
        rw [this]
        simp
    have hfix : ∀ l ∈ renderBlocks ((c₀ :: rest).map blockOfCell) ++ [[]],
        isMarkerLine l = true → pyRstrip l = l := by
      intro l hl hml
      rcases List.mem_append.mp hl with hl | hl
      · rcases mem_renderBlocks hl with rfl | ⟨b, hb, hmk | hmem⟩
        · rw [isMarkerLine_nil] at hml
          exact absurd hml (by decide)
        · rw [hmk]
          exact pyRstrip_markerOf b.1
        · rw [hnoM b hb l hmem] at hml
          exact absurd hml (by decide)
      · have : l = [] := by simpa using hl
        rw [this, isMarkerLine_nil] at hml
        exact absurd hml (by decide)
    rw [ipynb_to_percent_script, flatten_cellLines_of_ok hne hok]
    rw [percent_script_to_ipynb]
    rw [decodeLines_pySplitlines_pyRstrip hnoN hfix]
    rw [show decodeLines (renderBlocks ((c₀ :: rest).map blockOfCell) ++ [[]]) =
        decodeLines (renderBlocks ((c₀ :: rest).map blockOfCell)) from by
      rw [decodeLines, decodeLines]
      exact decodeFrom_blank_concat _ _ (by
        intro l hl
        have : l = [] := by simpa using hl
        simp [this, isBlankStr])]
    rw [decodeLines_renderBlocks _ hnoM]
    rw [List.map_map, List.map_map]
    refine List.map_congr_left ?_
    intro c hc
    simp only [Function.comp_apply]
    exact cellKS_mkCell_blockOfCell (hok c hc)

/-- Counterexample to C1 as stated: the Document with the single Code cell
whose source is the marker token itself satisfies the claim's hypotheses
(only Code/Markdown cells, source non-empty and not whitespace-only), yet
decoding its encoding yields two empty Code cells instead. -/
theorem C1_counterexample :
    (∀ c ∈ [Cell.code ("# %%".data)],
        cellKind c ≠ none ∧ isBlankStr (cellSource c) = false) ∧
      (percent_script_to_ipynb
          (ipynb_to_percent_script [Cell.code ("# %%".data)])).map cellKS ≠
        [Cell.code ("# %%".data)].map cellKS := by decide

/-- Witness for the amended C1 at a concrete one-cell document. -/
theorem C1_document_text_document_roundtrip_witness :
    (∀ c ∈ [Cell.code ['x']], cellOK c = true) ∧
      (percent_script_to_ipynb (ipynb_to_percent_script [Cell.code ['x']])).map
          cellKS = [Cell.code ['x']].map cellKS :=
  ⟨by decide, C1_document_text_document_roundtrip [Cell.code ['x']] (by decide)⟩

/-! ## Marker-line kind discrimination -/

/-- Counterexample to C3 as stated: this line starts with the marker token
and the qualifier is not immediately after it, yet the decoder opens a
Markdown cell, because the code checks for the qualifier anywhere in the
line. -/
theorem C3_counterexample :
    isMarkerLine ("# %% foo [markdown]".data) = true ∧
      qualifierImmediately ("# %% foo [markdown]".data) = false ∧
      (stepLine ⟨[], none, []⟩ ("# %% foo [markdown]".data)).currentKind ≠
        some Kind.code ∧
      (stepLine ⟨[], none, []⟩ ("# %% foo [markdown]".data)).currentKind =
        some Kind.markdown := by decide

/-- C3 (amended): an input line that starts with the marker token and does
not contain the markdown qualifier anywhere opens a Code cell, and its
trailing content is ignored: the step behaves exactly as on the bare marker
token, so the trailing content neither changes the opened kind nor reaches
any cell's source buffer. -/
theorem C3_code_marker_opens_code (st : ScanState) (l : Str)
    (hm : isMarkerLine l = true) (ht : containsSeq markdownTagS l = false) :
    stepLine st l =
      ⟨st.cells ++ (flush_cell st.currentKind st.currentLines).toList,
        some Kind.code, []⟩ ∧
      stepLine st l = stepLine st codeMarkerS := by
  have h1 : stepLine st l =
      ⟨st.cells ++ (flush_cell st.currentKind st.currentLines).toList,
        some Kind.code, []⟩ := by
    rw [stepLine_marker st hm, kindOfMarker, if_neg (by simp [ht])]
  refine ⟨h1, ?_⟩
  rw [h1, stepLine_marker st (by decide), kindOfMarker, if_neg (by decide)]

/-- Witness for the amended C3 at a concrete marker line with trailing text. -/
theorem C3_code_marker_opens_code_witness :
    stepLine ⟨[], none, []⟩ ("# %% extra text".data) =
        ⟨[], some Kind.code, []⟩ ∧
      stepLine ⟨[], none, []⟩ ("# %% extra text".data) =
        stepLine ⟨[], none, []⟩ codeMarkerS := by
  have h := C3_code_marker_opens_code ⟨[], none, []⟩ ("# %% extra text".data)
    (by decide) (by decide)
  exact h

/-! ## Markdown content-line encoding -/

/-- C4: the encoder maps each non-blank markdown source line to the comment
prefix, a space and the line verbatim, and each blank source line to the
bare comment prefix; the markdown cell with source text a, blank, b encodes
to exactly the three content lines expected, and decoding that encoding
restores the source. -/
theorem C4_markdown_content_encoding :
    (∀ l : Str, (isBlankStr l = true → mdEncodeLine l = hashS) ∧
        (isBlankStr l = false → mdEncodeLine l = hashSpaceS ++ l)) ∧
      cellLines (Cell.markdown ("a\n\nb".data)) =
        [markdownMarkerS, "# a".data, "#".data, "# b".data, []] ∧
      percent_script_to_ipynb
          (ipynb_to_percent_script [Cell.markdown ("a\n\nb".data)]) =
        [Cell.markdown ("a\n\nb".data)] := by
  refine ⟨?_, by decide, by decide⟩
  intro l
  exact ⟨mdEncodeLine_of_blank, mdEncodeLine_of_not_blank⟩

/-- Witness for C4 at a concrete non-blank line. -/
theorem C4_markdown_content_encoding_witness :
    mdEncodeLine ("a".data) = hashSpaceS ++ "a".data :=
  (C4_markdown_content_encoding.1 ("a".data)).2 (by decide)

/-! ## Empty code cell -/

/-- C5: a Code cell with empty source encodes to just its marker line
followed by the blank separator line, the whole-document encoding is the
marker line plus one final newline, and decoding that output yields a Code
cell with empty source. -/
theorem C5_empty_code_cell :
    cellLines (Cell.code []) = [codeMarkerS, []] ∧
      ipynb_to_percent_script [Cell.code []] = codeMarkerS ++ ['\n'] ∧
      percent_script_to_ipynb (ipynb_to_percent_script [Cell.code []]) =
        [Cell.code []] := by decide

/-! ## Pre-marker content discarded -/

theorem decodeFrom_none_buf (lines : List Str) (cs : List Cell)
    (buf buf' : List Str) :
    decodeFrom ⟨cs, none, buf⟩ lines = decodeFrom ⟨cs, none, buf'⟩ lines := by
  induction lines generalizing buf buf' with
  | nil => rfl
  | cons l ls ih =>
    rw [decodeFrom, decodeFrom, List.foldl_cons, List.foldl_cons]
    by_cases hm : isMarkerLine l = true
    · rw [stepLine_marker _ hm, stepLine_marker _ hm]
      rfl
    · have hm' : isMarkerLine l = false := by simp [hm]
      rw [stepLine_no_marker _ hm', stepLine_no_marker _ hm']
      exact ih (buf ++ [l]) (buf' ++ [l])

/-- C6: when the decoder's input splits into non-marker lines followed by the
rest, the pre-marker lines are discarded entirely: the decoded Document is
the one decoded from the rest alone; and flushing with no open kind
materializes no cell. -/
theorem C6_pre_marker_discarded (t : Str) (pre rest : List Str)
    (hsplit : pySplitlines t = pre ++ rest)
    (hpre : ∀ l ∈ pre, isMarkerLine l = false) :
    percent_script_to_ipynb t = decodeLines rest ∧
      ∀ buf : List Str, flush_cell none buf = none := by
  refine ⟨?_, fun buf => rfl⟩
  rw [percent_script_to_ipynb, hsplit, decodeLines, decodeLines, decodeFrom,
    List.foldl_append, foldl_stepLine_no_marker _ hpre]
  exact decodeFrom_none_buf rest [] ([] ++ pre) []

/-- Witness for C6 at a concrete input with one leading junk line. -/
theorem C6_pre_marker_discarded_witness :
    percent_script_to_ipynb ("junk\n# %%\nx\n".data) =
        decodeLines ["# %%".data, "x".data] ∧
      flush_cell none ["abc".data] = none := by
  have h := C6_pre_marker_discarded ("junk\n# %%\nx\n".data) ["junk".data]
    ["# %%".data, "x".data] (by decide) (by decide)
  exact ⟨h.1, h.2 _⟩

/-! ## Unsupported cell kinds are skipped -/

/-- C7: a cell of unsupported kind emits no output lines, emits exactly one
diagnostic naming its kind, and the encoder's output on any document equals
the output on the same document with the unsupported cell removed, so
processing continues with the remaining cells in order. -/
theorem C7_unsupported_cell_skipped (t s : Str) (xs ys : List Cell) :
    cellLines (Cell.other t s) = [] ∧
      cellDiag (Cell.other t s) =
        [("Skipping unsupported cell type: ".data) ++ t] ∧
      encodeDiags (xs ++ Cell.other t s :: ys) =
        encodeDiags xs ++ [("Skipping unsupported cell type: ".data) ++ t] ++
          encodeDiags ys ∧
      ipynb_to_percent_script (xs ++ Cell.other t s :: ys) =
        ipynb_to_percent_script (xs ++ ys) := by
  refine ⟨rfl, rfl, ?_, ?_⟩
  · rw [encodeDiags, encodeDiags, encodeDiags, List.map_append, List.map_cons,
      List.flatten_append, List.flatten_cons]
    simp [cellDiag, List.append_assoc]
  · rw [ipynb_to_percent_script, ipynb_to_percent_script]
    have h : ((xs ++ Cell.other t s :: ys).map cellLines).flatten =
        ((xs ++ ys).map cellLines).flatten := by
      rw [List.map_append, List.map_append, List.map_cons, List.flatten_append,
        List.flatten_append, List.flatten_cons]
      rw [show cellLines (Cell.other t s) = [] from rfl, List.nil_append]
    rw [h]

/-! ## Output trailing convention -/

/-- C8: for every input Document the encoder's output is nonempty, ends with
exactly one line break, and the text before that final line break carries no
trailing whitespace and hence no trailing blank lines. -/
theorem C8_trailing_newline (cells : List Cell) :
    ipynb_to_percent_script cells ≠ [] ∧
      (ipynb_to_percent_script cells).getLast? = some '\n' ∧
      pyRstrip ((ipynb_to_percent_script cells).dropLast) =
        (ipynb_to_percent_script cells).dropLast := by
  refine ⟨by simp [ipynb_to_percent_script], ?_, ?_⟩
  · rw [ipynb_to_percent_script]
    exact List.getLast?_concat _
  · rw [ipynb_to_percent_script, List.dropLast_concat]
    exact pyRstrip_idem _

/-! ## Markdown prefix stripping on decode -/

/-- C9: when flushing a Markdown cell, a buffered line consisting of the
comment prefix plus a space plus content loses exactly that prefix; a line
starting with the bare comment prefix loses the prefix and any immediately
following whitespace; any other line is kept unchanged; and the flush is
total, always producing a Markdown cell from these per-line results. -/
theorem C9_markdown_decode_fallback :
    (∀ t : Str, mdDecodeLine (hashSpaceS ++ t) = t) ∧
      (∀ l : Str, hashSpaceS.isPrefixOf l = false → hashS.isPrefixOf l = true →
        mdDecodeLine l = pyLstrip (l.drop 1)) ∧
      (∀ l : Str, hashS.isPrefixOf l = false → mdDecodeLine l = l) ∧
      (∀ buf : List Str, flush_cell (some Kind.markdown) buf =
        some (Cell.markdown (pyRstrip (joinLines (buf.map mdDecodeLine))))) := by
  refine ⟨?_, ?_, ?_, fun buf => rfl⟩
  · intro t
    rw [hashSpace_append_eq]
    exact mdDecodeLine_hashSpace t
  · intro l h1 h2
    rw [mdDecodeLine, if_neg (by simp [h1]), if_pos (by simp [h2])]
  · intro l h
    rw [mdDecodeLine, if_neg, if_neg (by simp [h])]
    intro hcon
    have h2 := isPrefixOf_trans (by decide : hashS.isPrefixOf hashSpaceS = true) hcon
    exact absurd h2 (by simp [h])

/-- Witness for C9 at three concrete lines, one per branch. -/
theorem C9_markdown_decode_fallback_witness :
    mdDecodeLine ("# x".data) = "x".data ∧ mdDecodeLine ("#x".data) = "x".data ∧
      mdDecodeLine ("y".data) = "y".data := by
  have h := C9_markdown_decode_fallback
  refine ⟨?_, ?_, ?_⟩
  · have h1 := h.1 ("x".data)
    rw [show (hashSpaceS ++ "x".data : Str) = "# x".data from by decide] at h1
    exact h1
  · exact h.2.1 ("#x".data) (by decide) (by decide)
  · exact h.2.2.1 ("y".data) (by decide)

/-! ## Decoded sources never end in whitespace -/

theorem flush_cell_rstrip_fixed {k : Option Kind} {buf : List Str} {c : Cell}
    (h : c ∈ (flush_cell k buf).toList) :
    pyRstrip (cellSource c) = cellSource c := by
  cases k with
  | none => simp [flush_cell] at h
  | some k =>
    rw [flush_cell_some] at h
    have hc : c = mkCell k buf := by simpa using h
    rw [hc]
    cases k with
    | code => exact pyRstrip_idem _
    | markdown => exact pyRstrip_idem _

theorem decodeFrom_rstrip_fixed {st : ScanState}
    (hst : ∀ c ∈ st.cells, pyRstrip (cellSource c) = cellSource c)
    (lines : List Str) :
    ∀ c ∈ decodeFrom st lines, pyRstrip (cellSource c) = cellSource c := by
  induction lines generalizing st with
  | nil =>
    intro c hc
    rw [decodeFrom, List.foldl_nil, finishScan] at hc
    rcases List.mem_append.mp hc with hc | hc
    · exact hst c hc
    · exact flush_cell_rstrip_fixed hc
  | cons l ls ih =>
    intro c hc
    rw [decodeFrom, List.foldl_cons] at hc
    refine @ih (stepLine st l) ?_ c hc
    by_cases hm : isMarkerLine l = true
    · rw [stepLine_marker _ hm]
      intro c' hc'
      rcases List.mem_append.mp hc' with hc' | hc'
      · exact hst c' hc'
      · exact flush_cell_rstrip_fixed hc'
    · rw [stepLine_no_marker _ (by simp [hm])]
      exact hst

/-- C10: every cell in the Document produced by the decoder has a source
that is a fixed point of trailing-whitespace stripping, hence is either
empty or ends in a non-whitespace character. -/
theorem C10_decoded_sources_stripped (text : Str) :
    ∀ c ∈ percent_script_to_ipynb text,
      pyRstrip (cellSource c) = cellSource c ∧
        ∀ ch, (cellSource c).getLast? = some ch → ch.isWhitespace = false := by
  intro c hc
  have hfix : pyRstrip (cellSource c) = cellSource c :=
    @decodeFrom_rstrip_fixed ⟨[], none, []⟩ (by simp) _ c hc
  exact ⟨hfix, fun ch hch => getLast_not_ws_of_pyRstrip_fixed hfix hch⟩

/-- Witness for C10 at a concrete input whose code line has trailing space. -/
theorem C10_decoded_sources_stripped_witness :
    pyRstrip (cellSource (Cell.code "x".data)) = cellSource (Cell.code "x".data) := by
  have h := C10_decoded_sources_stripped ("# %%\nx \n".data) (Cell.code "x".data)
    (by decide)
  exact h.1
